import Mathlib

/-!
# Verification of the mason compound-learning core

Shallow embedding of the retry-pattern learning engine:

* `rules.py` — the Pattern Repository: a markdown file manipulated as raw
  text.  File contents are modelled as `List Char`; the Python regexes are
  modelled by executable scanners with the same semantics
  (`^### ([^:]+): (.+)$` with MULTILINE for title extraction, and the
  unanchored DOTALL search `### <id>.*?Triggers\*\*: (\d+)` for the
  trigger-count update).
* `state.py` — the Session State Store: JSON-level model of
  serialization, corruption handling and the cleanup sweep.
* Components whose scripts are not part of the sources (goal classifier,
  template matcher, confidence scorer, event tracker, entry formatting)
  are modelled from the specification and marked as such.
-/

set_option maxHeartbeats 1000000
set_option maxRecDepth 16384

/-! ## Decimal digit strings (Python `int(...)` / `str(...)` on counters) -/

/-- The decimal digit character for `n % 10`-style values below ten. -/
def digitChar (n : Nat) : Char :=
  if n = 0 then '0' else if n = 1 then '1' else if n = 2 then '2'
  else if n = 3 then '3' else if n = 4 then '4' else if n = 5 then '5'
  else if n = 6 then '6' else if n = 7 then '7' else if n = 8 then '8' else '9'

/-- Fuel-driven worker for the decimal representation (structural recursion
so that the kernel can evaluate it). -/
def natDigitsAux : Nat → Nat → List Char
  | _, 0 => []
  | n, fuel + 1 =>
    if n < 10 then [digitChar n]
    else natDigitsAux (n / 10) fuel ++ [digitChar (n % 10)]

/-- Decimal representation of a natural number, as Python `str(n)`. -/
def natDigits (n : Nat) : List Char := natDigitsAux n (n + 1)

theorem natDigitsAux_fuel (f1 : Nat) : ∀ f2 n, n < f1 → n < f2 →
    natDigitsAux n f1 = natDigitsAux n f2 := by
  induction f1 with
  | zero => intro f2 n h1; omega
  | succ f1 ih =>
    intro f2 n h1 h2
    cases f2 with
    | zero => omega
    | succ f2 =>
      rw [natDigitsAux, natDigitsAux]
      by_cases hn : n < 10
      · simp [hn]
      · rw [if_neg hn, if_neg hn]
        have hd : n / 10 < n := Nat.div_lt_self (by omega) (by omega)
        rw [ih f2 (n / 10) (by omega) (by omega)]

/-- The recursive unfolding of `natDigits`. -/
theorem natDigits_eq (n : Nat) : natDigits n =
    if n < 10 then [digitChar n] else natDigits (n / 10) ++ [digitChar (n % 10)] := by
  rw [natDigits, natDigitsAux]
  by_cases hn : n < 10
  · simp [hn]
  · rw [if_neg hn, if_neg hn, natDigits]
    have hd : n / 10 < n := Nat.div_lt_self (by omega) (by omega)
    rw [natDigitsAux_fuel n (n / 10 + 1) (n / 10) (by omega) (by omega)]

/-- Value of a digit string, as Python `int(s)` on a run of digits. -/
def digitsToNat (l : List Char) : Nat :=
  l.foldl (fun a c => a * 10 + (c.toNat - 48)) 0

/-! ## Line splitting (Python `str.split('\n')` view used for MULTILINE `^`/`$`) -/

/-- Split a character list at newline characters; never returns `[]`. -/
def splitLines : List Char → List (List Char)
  | [] => [[]]
  | c :: rest =>
    if c = '\n' then [] :: splitLines rest
    else
      match splitLines rest with
      | [] => [[c]]
      | l :: ls => (c :: l) :: ls

/-! ## `extract_pattern_titles` (rules.py)

`re.findall(r'^### ([^:]+): (.+)$', content, re.MULTILINE)`: at each line
start, `### ` followed by the (possibly newline-containing) run of
non-colon characters up to the first colon, which must be followed by a
space and at least one further character on that line; matches are
non-overlapping and scanning resumes after each match. -/

/-- Locate the first colon starting inside `cur` and continuing through the
following lines (`[^:]+` may cross newlines); returns the characters before
the colon, the characters after it on the colon's line, and the lines after
that line. -/
def splitAtColon : List Char → List (List Char) → Option (List Char × List Char × List (List Char))
  | cur, rest =>
    if cur.contains ':' then
      some (cur.takeWhile (fun c => c ≠ ':'), (cur.dropWhile (fun c => c ≠ ':')).drop 1, rest)
    else
      match rest with
      | [] => none
      | l :: ls => (splitAtColon l ls).map (fun p => (cur ++ '\n' :: p.1, p.2.1, p.2.2))

theorem splitAtColon_rest_le (cur : List Char) (rest : List (List Char))
    (c p : List Char) (rem : List (List Char))
    (h : splitAtColon cur rest = some (c, p, rem)) : rem.length ≤ rest.length := by
  induction rest generalizing cur c p rem with
  | nil =>
    rw [splitAtColon] at h
    split at h
    · simp only [Option.some.injEq, Prod.mk.injEq] at h
      obtain ⟨-, -, hr⟩ := h
      simp [← hr]
    · exact absurd h (by simp)
  | cons l ls ih =>
    rw [splitAtColon] at h
    split at h
    · simp only [Option.some.injEq, Prod.mk.injEq] at h
      obtain ⟨-, -, hr⟩ := h
      simp [← hr]
    · rw [Option.map_eq_some'] at h
      obtain ⟨⟨c', p', rem'⟩, hrec, heq⟩ := h
      simp only [Prod.mk.injEq] at heq
      obtain ⟨-, -, hr⟩ := heq
      have := ih l c' p' rem' hrec
      simp only [List.length_cons, ← hr]
      omega

theorem splitAtColon_pos (cur : List Char) (rest : List (List Char))
    (h : cur.contains ':' = true) :
    splitAtColon cur rest = some (cur.takeWhile (fun c => c ≠ ':'),
      (cur.dropWhile (fun c => c ≠ ':')).drop 1, rest) := by
  cases rest with
  | nil => rw [splitAtColon, if_pos h]
  | cons a b => rw [splitAtColon, if_pos h]

/-- Fuel-driven worker for the findall scan (structural recursion so the
kernel can evaluate it; the fuel bounds the number of lines).  A line
starting with `### ` whose colon search succeeds with nonempty category,
a space after the colon and a nonempty title yields a match consuming
through the colon's line; any other line is skipped. -/
def scanLinesAux : Nat → List (List Char) → List (List Char × List Char)
  | _, [] => []
  | 0, _ :: _ => []
  | fuel + 1, l :: ls =>
    if List.isPrefixOf ("### ").toList l then
      match splitAtColon (l.drop 4) ls with
      | some (cat, post, rem) =>
        if cat ≠ [] ∧ post.head? = some ' ' ∧ post.tail ≠ [] then
          (cat, post.tail) :: scanLinesAux fuel rem
        else scanLinesAux fuel ls
      | none => scanLinesAux fuel ls
    else scanLinesAux fuel ls

/-- The MULTILINE findall over the line decomposition: attempt a heading
match at each line start, skipping the consumed lines after each match. -/
def scanLines (lines : List (List Char)) : List (List Char × List Char) :=
  scanLinesAux lines.length lines

theorem scanLinesAux_fuel (f1 : Nat) : ∀ f2 lines, lines.length ≤ f1 → lines.length ≤ f2 →
    scanLinesAux f1 lines = scanLinesAux f2 lines := by
  induction f1 with
  | zero =>
    intro f2 lines h1 h2
    cases lines with
    | nil => cases f2 <;> rfl
    | cons l ls => simp at h1
  | succ f1 ih =>
    intro f2 lines h1 h2
    cases lines with
    | nil => cases f2 <;> rfl
    | cons l ls =>
      cases f2 with
      | zero => simp at h2
      | succ f2 =>
        simp only [List.length_cons] at h1 h2
        rw [scanLinesAux, scanLinesAux]
        by_cases hp : List.isPrefixOf ("### ").toList l = true
        · rw [if_pos hp, if_pos hp]
          cases hsc : splitAtColon (l.drop 4) ls with
          | none => exact ih f2 ls (by omega) (by omega)
          | some triple =>
            obtain ⟨cat, post, rem⟩ := triple
            have hrem := splitAtColon_rest_le _ _ _ _ _ hsc
            show (if cat ≠ [] ∧ post.head? = some ' ' ∧ post.tail ≠ [] then
                (cat, post.tail) :: scanLinesAux f1 rem else scanLinesAux f1 ls)
              = (if cat ≠ [] ∧ post.head? = some ' ' ∧ post.tail ≠ [] then
                (cat, post.tail) :: scanLinesAux f2 rem else scanLinesAux f2 ls)
            by_cases hc : cat ≠ [] ∧ post.head? = some ' ' ∧ post.tail ≠ []
            · rw [if_pos hc, if_pos hc, ih f2 rem (by omega) (by omega)]
            · rw [if_neg hc, if_neg hc]
              exact ih f2 ls (by omega) (by omega)
        · rw [if_neg hp, if_neg hp]
          exact ih f2 ls (by omega) (by omega)

theorem scanLines_nil : scanLines [] = [] := rfl

theorem scanLines_cons (l : List Char) (ls : List (List Char)) :
    scanLines (l :: ls) = (if List.isPrefixOf ("### ").toList l then
      match splitAtColon (l.drop 4) ls with
      | some (cat, post, rem) =>
        if cat ≠ [] ∧ post.head? = some ' ' ∧ post.tail ≠ [] then
          (cat, post.tail) :: scanLines rem
        else scanLines ls
      | none => scanLines ls
    else scanLines ls) := by
  show scanLinesAux (ls.length + 1) (l :: ls) = _
  rw [scanLinesAux]
  by_cases hp : List.isPrefixOf ("### ").toList l = true
  · rw [if_pos hp, if_pos hp]
    cases hsc : splitAtColon (l.drop 4) ls with
    | none => rfl
    | some triple =>
      obtain ⟨cat, post, rem⟩ := triple
      have hrem := splitAtColon_rest_le _ _ _ _ _ hsc
      show (if cat ≠ [] ∧ post.head? = some ' ' ∧ post.tail ≠ [] then
          (cat, post.tail) :: scanLinesAux ls.length rem else scanLinesAux ls.length ls)
        = (if cat ≠ [] ∧ post.head? = some ' ' ∧ post.tail ≠ [] then
          (cat, post.tail) :: scanLines rem else scanLines ls)
      by_cases hc : cat ≠ [] ∧ post.head? = some ' ' ∧ post.tail ≠ []
      · rw [if_pos hc, if_pos hc,
          scanLinesAux_fuel ls.length rem.length rem (by omega) (by omega)]
        rfl
      · rw [if_neg hc, if_neg hc]
        rfl
  · rw [if_neg hp, if_neg hp]
    rfl

/-- `extract_pattern_titles` from rules.py: the list of `category: title`
strings of all matched headings. -/
def extract_pattern_titles (content : List Char) : List (List Char) :=
  (scanLines (splitLines content)).map (fun p => p.1 ++ (": ").toList ++ p.2)

/-- `is_duplicate` from rules.py: exact membership of `category: title`
among the extracted titles. -/
def is_duplicate (category title content : List Char) : Bool :=
  decide ((category ++ (": ").toList ++ title) ∈ extract_pattern_titles content)

/-- `write_pattern` from rules.py: append the formatted entry to the file. -/
def write_pattern (pattern_entry content : List Char) : List Char :=
  content ++ pattern_entry

/-- The header text written by `ensure_rules_file_exists` (and `clear_patterns`). -/
def rulesHeader : List Char :=
  ("# Learned Patterns\n\nAutomatically extracted from observed retry patterns. Updated after each session.\n\nThese patterns help Claude avoid common mistakes by learning from previous errors.\n\n---\n").toList

/-! ## `update_pattern_triggers` (rules.py)

`re.search(rf'(### {re.escape(id)}.*?Triggers\*\*: )(\d+)', content, re.DOTALL)`:
the leftmost occurrence of the literal `### category: title` that is
followed (lazily, across newlines) by the literal `Triggers**: ` and at
least one digit; the maximal digit run is replaced by its successor.  On
no match the function returns `False` and performs no write. -/

/-- Leftmost occurrence split: `s = pre ++ pat ++ post` with minimal `pre`. -/
def splitFirst (pat : List Char) : List Char → Option (List Char × List Char)
  | [] => if pat = [] then some ([], []) else none
  | c :: rest =>
    if List.isPrefixOf pat (c :: rest) then some ([], (c :: rest).drop pat.length)
    else (splitFirst pat rest).map (fun p => (c :: p.1, p.2))

/-- The literal `Triggers**: ` of the counter field. -/
def trigMarker : List Char := ("Triggers**: ").toList

/-- First occurrence of `Triggers**: ` that is immediately followed by a
digit; returns the text before the marker, the maximal digit run after it,
and the remaining text. -/
def findTrig : List Char → Option (List Char × List Char × List Char)
  | [] => none
  | c :: rest =>
    if List.isPrefixOf trigMarker (c :: rest)
        ∧ ((c :: rest).drop trigMarker.length).takeWhile Char.isDigit ≠ [] then
      some ([], ((c :: rest).drop trigMarker.length).takeWhile Char.isDigit,
        ((c :: rest).drop trigMarker.length).dropWhile Char.isDigit)
    else (findTrig rest).map (fun p => (c :: p.1, p.2.1, p.2.2))

/-- The heading literal `### category: title` used by the update regex. -/
def headingLit (category title : List Char) : List Char :=
  ("### ").toList ++ category ++ (": ").toList ++ title

/-- `update_pattern_triggers` from rules.py, as a pure function on the file
content: `none` models the `False` return (no write performed), `some c`
models the `True` return with `c` the rewritten file. -/
def update_pattern_triggers (category title content : List Char) : Option (List Char) :=
  match splitFirst (headingLit category title) content with
  | none => none
  | some (pre, rest) =>
    match findTrig rest with
    | none => none
    | some (mid, ds, post) =>
      some (pre ++ headingLit category title ++ mid ++ trigMarker
        ++ natDigits (digitsToNat ds + 1) ++ post)

/-- The observable behaviour of `update_pattern_triggers`: the returned
boolean together with the file content after the call. -/
def update_pattern_triggers_run (category title content : List Char) : Bool × List Char :=
  match update_pattern_triggers category title content with
  | none => (false, content)
  | some c => (true, c)

/-- Trigger-count observer: the value of the counter field located exactly
as `update_pattern_triggers` locates it. -/
def read_trigger_count (category title content : List Char) : Option Nat :=
  match splitFirst (headingLit category title) content with
  | none => none
  | some (_, rest) =>
    match findTrig rest with
    | none => none
    | some (_, ds, _) => some (digitsToNat ds)

/-! ## Generic helper lemmas -/

theorem takeWhile_append_all (p : Char → Bool) (a : List Char) (x : Char) (r : List Char)
    (ha : ∀ c ∈ a, p c = true) (hx : p x = false) :
    (a ++ x :: r).takeWhile p = a ∧ (a ++ x :: r).dropWhile p = x :: r := by
  induction a with
  | nil => simp [List.takeWhile, List.dropWhile, hx]
  | cons c a ih =>
    have hc : p c = true := ha c (by simp)
    have := ih (fun d hd => ha d (by simp [hd]))
    simp [List.takeWhile, List.dropWhile, hc, this.1, this.2]

/-- Occurrence of `pat` as a contiguous substring of `s`. -/
def occursIn (pat s : List Char) : Prop := ∃ x y, s = x ++ pat ++ y

theorem splitFirst_sound (pat s : List Char) (p q : List Char)
    (h : splitFirst pat s = some (p, q)) : s = p ++ pat ++ q := by
  induction s generalizing p q with
  | nil =>
    rw [splitFirst] at h
    split at h
    · rename_i hp
      simp only [Option.some.injEq, Prod.mk.injEq] at h
      simp [hp, ← h.1, ← h.2]
    · exact absurd h (by simp)
  | cons c rest ih =>
    rw [splitFirst] at h
    split at h
    · rename_i hp
      rw [List.isPrefixOf_iff_prefix] at hp
      obtain ⟨t, ht⟩ := hp
      simp only [Option.some.injEq, Prod.mk.injEq] at h
      rw [← h.1, ← h.2, ← ht]
      simp [← ht, List.drop_left]
    · rw [Option.map_eq_some'] at h
      obtain ⟨⟨p', q'⟩, hrec, heq⟩ := h
      simp only [Prod.mk.injEq] at heq
      have := ih p' q' hrec
      rw [← heq.1, ← heq.2]
      simp [this]

theorem splitFirst_complete (pat s : List Char) (h : occursIn pat s) :
    (splitFirst pat s).isSome := by
  obtain ⟨x, y, hxy⟩ := h
  induction x generalizing s with
  | nil =>
    subst hxy
    simp only [List.nil_append]
    cases hp : pat ++ y with
    | nil =>
      have hp0 : pat = [] := by
        cases pat with
        | nil => rfl
        | cons a b => simp at hp
      rw [hp0, splitFirst]
      simp
    | cons c rest =>
      rw [splitFirst]
      have : List.isPrefixOf pat (c :: rest) = true := by
        rw [List.isPrefixOf_iff_prefix, ← hp]
        exact ⟨y, rfl⟩
      simp [this]
  | cons c x ih =>
    subst hxy
    rw [show (c :: x) ++ pat ++ y = c :: (x ++ pat ++ y) by simp, splitFirst]
    split
    · simp
    · have := ih _ rfl
      rw [Option.isSome_map']
      exact this

theorem splitFirst_none_not_occurs (pat s : List Char) (h : splitFirst pat s = none) :
    ¬ occursIn pat s := by
  intro hocc
  have := splitFirst_complete pat s hocc
  rw [h] at this
  simp at this

theorem splitFirst_min (pat s : List Char) (p q : List Char)
    (h : splitFirst pat s = some (p, q)) :
    ∀ a b, s = a ++ pat ++ b → p.length ≤ a.length := by
  induction s generalizing p q with
  | nil =>
    intro a b hab
    rw [splitFirst] at h
    split at h
    · rename_i hp
      simp only [Option.some.injEq, Prod.mk.injEq] at h
      simp [← h.1]
    · exact absurd h (by simp)
  | cons c rest ih =>
    intro a b hab
    rw [splitFirst] at h
    split at h
    · rename_i hp
      simp only [Option.some.injEq, Prod.mk.injEq] at h
      simp [← h.1]
    · rename_i hp
      rw [Option.map_eq_some'] at h
      obtain ⟨⟨p', q'⟩, hrec, heq⟩ := h
      simp only [Prod.mk.injEq] at heq
      cases a with
      | nil =>
        exfalso
        apply hp
        rw [List.isPrefixOf_iff_prefix]
        simp only [List.nil_append] at hab
        exact ⟨b, hab.symm⟩
      | cons a0 a' =>
        simp only [List.cons_append] at hab
        have ha' : rest = a' ++ pat ++ b := by
          injection hab
        have := ih p' q' hrec a' b ha'
        rw [← heq.1]
        simp only [List.length_cons]
        omega

/-- No occurrence of `pat` starts strictly inside `a` when scanning `a ++ s`. -/
def noStart (pat a s : List Char) : Prop :=
  ∀ i, i < a.length → ¬ (List.isPrefixOf pat ((a ++ s).drop i) = true)

theorem splitFirst_append_skip (pat a s : List Char) (h : noStart pat a s) :
    splitFirst pat (a ++ s) = (splitFirst pat s).map (fun p => (a ++ p.1, p.2)) := by
  induction a with
  | nil =>
    simp only [List.nil_append]
    cases hs : splitFirst pat s with
    | none => simp
    | some p => simp
  | cons c a ih =>
    have hnp : ¬ (List.isPrefixOf pat (c :: (a ++ s)) = true) := by
      have := h 0 (by simp)
      simpa using this
    have ht : noStart pat a s := by
      intro i hi
      have := h (i + 1) (by simp; omega)
      simpa using this
    rw [show (c :: a) ++ s = c :: (a ++ s) from rfl, splitFirst, if_neg hnp, ih ht]
    cases hs : splitFirst pat s with
    | none => simp
    | some p => simp

theorem all_takeWhile (p : Char → Bool) (l : List Char) :
    ∀ c ∈ l.takeWhile p, p c = true := by
  induction l with
  | nil => simp
  | cons x l ih =>
    intro c hc
    by_cases hx : p x = true
    · rw [List.takeWhile_cons_of_pos hx] at hc
      rcases List.mem_cons.mp hc with h | h
      · rw [h]; exact hx
      · exact ih c h
    · rw [List.takeWhile_cons_of_neg hx] at hc
      simp at hc

theorem head_dropWhile (p : Char → Bool) (l : List Char) (c : Char)
    (h : (l.dropWhile p).head? = some c) : p c = false := by
  induction l with
  | nil => simp [List.dropWhile] at h
  | cons x l ih =>
    by_cases hx : p x = true
    · rw [List.dropWhile_cons_of_pos hx] at h
      exact ih h
    · rw [List.dropWhile_cons_of_neg hx] at h
      simp at h
      rw [← h]
      simpa using hx

theorem findTrig_cons (c : Char) (rest : List Char) :
    findTrig (c :: rest) = if List.isPrefixOf trigMarker (c :: rest)
        ∧ ((c :: rest).drop trigMarker.length).takeWhile Char.isDigit ≠ [] then
      some ([], ((c :: rest).drop trigMarker.length).takeWhile Char.isDigit,
        ((c :: rest).drop trigMarker.length).dropWhile Char.isDigit)
    else (findTrig rest).map (fun p => (c :: p.1, p.2.1, p.2.2)) := by
  rw [findTrig]

theorem findTrig_sound (s p d q : List Char) (h : findTrig s = some (p, d, q)) :
    s = p ++ trigMarker ++ d ++ q ∧ d ≠ [] ∧ (∀ c ∈ d, c.isDigit = true)
      ∧ (∀ c, q.head? = some c → c.isDigit = false) := by
  induction s generalizing p d q with
  | nil => rw [findTrig] at h; exact absurd h (by simp)
  | cons c rest ih =>
    rw [findTrig_cons] at h
    split at h
    · rename_i hc
      obtain ⟨hpre, hne⟩ := hc
      rw [List.isPrefixOf_iff_prefix] at hpre
      obtain ⟨u, hu⟩ := hpre
      have hdrop : (c :: rest).drop trigMarker.length = u := by
        rw [← hu]; exact List.drop_left trigMarker u
      rw [hdrop] at h hne
      simp only [Option.some.injEq, Prod.mk.injEq] at h
      obtain ⟨hp, hd, hq⟩ := h
      refine ⟨?_, ?_, ?_, ?_⟩
      · rw [← hp, ← hd, ← hq, ← hu]
        simp [List.takeWhile_append_dropWhile]
      · rw [← hd]; exact hne
      · rw [← hd]; exact all_takeWhile Char.isDigit u
      · intro x hx
        rw [← hq] at hx
        exact head_dropWhile Char.isDigit u x hx
    · rw [Option.map_eq_some'] at h
      obtain ⟨⟨p', d', q'⟩, hrec, heq⟩ := h
      simp only [Prod.mk.injEq] at heq
      obtain ⟨hp, hd, hq⟩ := heq
      obtain ⟨h1, h2, h3, h4⟩ := ih p' d' q' hrec
      refine ⟨?_, ?_, ?_, ?_⟩
      · rw [← hp, ← hd, ← hq]
        simp [h1]
      · rw [← hd]; exact h2
      · rw [← hd]; exact h3
      · rw [← hq]; exact h4

theorem findTrig_complete (s p : List Char) (c : Char) (q : List Char)
    (hs : s = p ++ trigMarker ++ c :: q) (hc : c.isDigit = true) :
    (findTrig s).isSome := by
  induction p generalizing s with
  | nil =>
    simp only [List.nil_append] at hs
    subst hs
    have hm : trigMarker ++ c :: q = 'T' :: (("riggers**: ").toList ++ c :: q) := rfl
    rw [hm, findTrig_cons]
    have hp2 : List.isPrefixOf trigMarker ('T' :: (("riggers**: ").toList ++ c :: q)) = true := by
      rw [← hm, List.isPrefixOf_iff_prefix]
      exact ⟨c :: q, rfl⟩
    have hd2 : ('T' :: (("riggers**: ").toList ++ c :: q)).drop trigMarker.length = c :: q := by
      rw [← hm]
      exact List.drop_left trigMarker (c :: q)
    rw [hd2, if_pos ⟨hp2, by rw [List.takeWhile_cons_of_pos hc]; simp⟩]
    simp
  | cons x p ih =>
    subst hs
    rw [show ((x :: p) ++ trigMarker ++ c :: q) = x :: (p ++ trigMarker ++ c :: q) by simp,
      findTrig_cons]
    split
    · simp
    · rw [Option.isSome_map']
      exact ih _ rfl

theorem findTrig_none_no_occ (s : List Char) (h : findTrig s = none) :
    ¬ ∃ p c q, s = p ++ trigMarker ++ c :: q ∧ c.isDigit = true := by
  rintro ⟨p, c, q, hs, hc⟩
  have := findTrig_complete s p c q hs hc
  rw [h] at this
  simp at this

theorem findTrig_append_skip (a s : List Char) (h : noStart trigMarker a s) :
    findTrig (a ++ s) = (findTrig s).map (fun p => (a ++ p.1, p.2.1, p.2.2)) := by
  induction a with
  | nil =>
    simp only [List.nil_append]
    cases hs : findTrig s with
    | none => simp
    | some p => simp
  | cons c a ih =>
    have hnp : ¬ (List.isPrefixOf trigMarker (c :: (a ++ s)) = true) := by
      have := h 0 (by simp)
      simpa using this
    have ht : noStart trigMarker a s := by
      intro i hi
      have := h (i + 1) (by simp; omega)
      simpa using this
    rw [show (c :: a) ++ s = c :: (a ++ s) from rfl, findTrig_cons,
      if_neg (by simp [hnp]), ih ht]
    cases hs : findTrig s with
    | none => simp
    | some p => simp

/-! ## Leaf criteria for `noStart` -/

theorem noStart_of_head_free (pat a s : List Char) (pc : Char) (pr : List Char)
    (hpat : pat = pc :: pr) (ha : ∀ c ∈ a, c ≠ pc) : noStart pat a s := by
  induction a with
  | nil => intro i hi; simp at hi
  | cons c a ih =>
    intro i hi
    cases i with
    | zero =>
      intro hpre
      rw [List.isPrefixOf_iff_prefix] at hpre
      simp only [List.drop_zero] at hpre
      rw [hpat, show ((c :: a) ++ s) = c :: (a ++ s) from rfl, List.cons_prefix_cons] at hpre
      exact ha c (by simp) hpre.1.symm
    | succ j =>
      have := ih (fun d hd => ha d (by simp [hd])) j (by simp at hi; omega)
      simpa using this

theorem noStart_of_not_occurs (pat a : List Char) (s : List Char)
    (hnl : ('\n') ∉ pat) (hocc : ¬ occursIn pat a) : noStart pat a ('\n' :: s) := by
  intro i hi hpre
  rw [List.isPrefixOf_iff_prefix] at hpre
  rw [List.drop_append_of_le_length (by omega)] at hpre
  obtain ⟨u, hu⟩ := hpre
  rcases List.append_eq_append_iff.mp hu with ⟨a', ha1, ha2⟩ | ⟨c', hc1, hc2⟩
  · refine hocc ⟨a.take i, a', ?_⟩
    calc a = a.take i ++ a.drop i := (List.take_append_drop i a).symm
    _ = a.take i ++ pat ++ a' := by rw [ha1, List.append_assoc]
  · cases c' with
    | nil =>
      refine hocc ⟨a.take i, [], ?_⟩
      have hpd : pat = a.drop i := by simpa using hc1
      calc a = a.take i ++ a.drop i := (List.take_append_drop i a).symm
      _ = a.take i ++ pat ++ [] := by rw [← hpd]; simp
    | cons c0 c'' =>
      have hc0 : c0 = '\n' := by
        have h2 : ('\n') :: s = c0 :: (c'' ++ u) := by simpa using hc2
        injection h2 with h1 _
        exact h1.symm
      apply hnl
      rw [hc1, hc0]
      simp

theorem noStart_append (pat a b s : List Char)
    (h1 : noStart pat a (b ++ s)) (h2 : noStart pat b s) : noStart pat (a ++ b) s := by
  intro i hi
  rw [List.append_assoc]
  by_cases hia : i < a.length
  · exact h1 i hia
  · intro hpre
    have hj : ∃ j, i = a.length + j := ⟨i - a.length, by omega⟩
    obtain ⟨j, rfl⟩ := hj
    rw [List.drop_append] at hpre
    apply h2 j (by simp at hi; omega)
    exact hpre

/-! ## Digit-string lemmas -/

theorem digitChar_isDigit (n : Nat) : (digitChar n).isDigit = true := by
  unfold digitChar
  split_ifs <;> decide

theorem digitChar_toNat (n : Nat) (h : n < 10) : (digitChar n).toNat = 48 + n := by
  interval_cases n <;> decide

theorem natDigits_ne_nil (n : Nat) : natDigits n ≠ [] := by
  rw [natDigits_eq]
  split <;> simp

theorem natDigits_all_digit (n : Nat) : ∀ c ∈ natDigits n, c.isDigit = true := by
  induction n using Nat.strong_induction_on with
  | _ n ih =>
    rw [natDigits_eq]
    split
    · intro c hc
      simp only [List.mem_singleton] at hc
      rw [hc]
      exact digitChar_isDigit n
    · intro c hc
      rcases List.mem_append.mp hc with h | h
      · exact ih (n / 10) (Nat.div_lt_self (by omega) (by omega)) c h
      · simp only [List.mem_singleton] at h
        rw [h]
        exact digitChar_isDigit (n % 10)

theorem digitsToNat_append_one (a : List Char) (c : Char) :
    digitsToNat (a ++ [c]) = digitsToNat a * 10 + (c.toNat - 48) := by
  unfold digitsToNat
  rw [List.foldl_append]
  simp

theorem digitsToNat_natDigits (n : Nat) : digitsToNat (natDigits n) = n := by
  induction n using Nat.strong_induction_on with
  | _ n ih =>
    rw [natDigits_eq]
    split
    · rename_i h
      show digitsToNat [digitChar n] = n
      unfold digitsToNat
      simp [digitChar_toNat n h]
    · rename_i h
      rw [digitsToNat_append_one, ih (n / 10) (Nat.div_lt_self (by omega) (by omega)),
        digitChar_toNat (n % 10) (by omega)]
      omega

theorem newline_not_mem_digits (n : Nat) : ('\n') ∉ natDigits n := by
  intro hmem
  have := natDigits_all_digit n '\n' hmem
  simp [Char.isDigit] at this

theorem bigT_not_mem_digits (n : Nat) : ('T') ∉ natDigits n := by
  intro hmem
  have := natDigits_all_digit n 'T' hmem
  simp [Char.isDigit] at this

theorem append_overlap (x y z w : List Char) (h : x ++ y = z ++ w)
    (hl : x.length ≤ z.length) : ∃ u, z = x ++ u ∧ y = u ++ w := by
  rcases List.append_eq_append_iff.mp h with ⟨a', ha1, ha2⟩ | ⟨c', hc1, hc2⟩
  · exact ⟨a', ha1, ha2⟩
  · have hlen : c'.length = 0 := by
      have := congrArg List.length hc1
      simp at this
      omega
    have hc'nil : c' = [] := List.length_eq_zero.mp hlen
    subst hc'nil
    refine ⟨[], by simpa using hc1.symm, by simpa using hc2.symm⟩

/-- The match condition of the update regex: the heading literal occurs,
followed later by the counter marker and at least one digit. -/
def updateFound (category title content : List Char) : Prop :=
  ∃ a m c b, content = a ++ headingLit category title ++ m ++ trigMarker ++ c :: b
    ∧ c.isDigit = true

theorem update_some_found (category title content out : List Char)
    (h : update_pattern_triggers category title content = some out) :
    updateFound category title content := by
  cases h1 : splitFirst (headingLit category title) content with
  | none => simp [update_pattern_triggers, h1] at h
  | some pr =>
    obtain ⟨pre, rest⟩ := pr
    cases h2 : findTrig rest with
    | none => simp [update_pattern_triggers, h1, h2] at h
    | some tr =>
      obtain ⟨mid, ds, post⟩ := tr
      have hs1 := splitFirst_sound _ _ _ _ h1
      obtain ⟨hs2, hne, hdig, -⟩ := findTrig_sound _ _ _ _ h2
      cases hd : ds with
      | nil => exact absurd hd hne
      | cons d0 ds' =>
        refine ⟨pre, mid, d0, ds' ++ post, ?_, hdig d0 (by rw [hd]; simp)⟩
        rw [hs1, hs2, hd]
        simp

theorem update_none_of_not_found (category title content : List Char)
    (h : ¬ updateFound category title content) :
    update_pattern_triggers category title content = none := by
  cases hu : update_pattern_triggers category title content with
  | none => rfl
  | some out => exact absurd (update_some_found category title content out hu) h

theorem update_some_of_found (category title content : List Char)
    (h : updateFound category title content) :
    ∃ pre mid ds post,
      splitFirst (headingLit category title) content = some (pre, mid ++ trigMarker ++ ds ++ post)
      ∧ findTrig (mid ++ trigMarker ++ ds ++ post) = some (mid, ds, post)
      ∧ content = pre ++ headingLit category title ++ mid ++ trigMarker ++ ds ++ post
      ∧ ds ≠ [] ∧ (∀ c ∈ ds, c.isDigit = true)
      ∧ (∀ c, post.head? = some c → c.isDigit = false)
      ∧ update_pattern_triggers category title content
          = some (pre ++ headingLit category title ++ mid ++ trigMarker
              ++ natDigits (digitsToNat ds + 1) ++ post) := by
  obtain ⟨a, m, c, b, hc, hdig⟩ := h
  have hocc : occursIn (headingLit category title) content :=
    ⟨a, m ++ trigMarker ++ c :: b, by rw [hc]; simp⟩
  obtain ⟨⟨pre, rest⟩, h1⟩ := Option.isSome_iff_exists.mp (splitFirst_complete _ _ hocc)
  have hs1 := splitFirst_sound _ _ _ _ h1
  have hmin := splitFirst_min _ _ _ _ h1 a (m ++ trigMarker ++ c :: b) (by rw [hc]; simp)
  have hover : ∃ u, (a ++ headingLit category title ++ m)
      = (pre ++ headingLit category title) ++ u ∧ rest = u ++ (trigMarker ++ c :: b) := by
    apply append_overlap
    · rw [← List.append_assoc, ← hs1, hc]
      try simp
    · simp only [List.length_append]
      omega
  obtain ⟨u, -, hrest⟩ := hover
  have hft : (findTrig rest).isSome := findTrig_complete rest u c b (by rw [hrest]; simp) hdig
  obtain ⟨⟨mid, ds, post⟩, h2⟩ := Option.isSome_iff_exists.mp hft
  obtain ⟨hs2, hne, hdigs, hhead⟩ := findTrig_sound _ _ _ _ h2
  have hrest2 : rest = mid ++ trigMarker ++ ds ++ post := hs2
  have hcomp1 : splitFirst (headingLit category title) content
      = some (pre, mid ++ trigMarker ++ ds ++ post) := by rw [← hrest2]; exact h1
  have hcomp2 : findTrig (mid ++ trigMarker ++ ds ++ post) = some (mid, ds, post) := by
    rw [← hrest2]; exact h2
  have hcomp3 : content = pre ++ headingLit category title ++ mid ++ trigMarker ++ ds ++ post := by
    rw [hs1, hrest2]
    simp [List.append_assoc]
  refine ⟨pre, mid, ds, post, hcomp1, hcomp2, hcomp3, hne, hdigs, hhead, ?_⟩
  simp [update_pattern_triggers, h1, h2]

/-- C3 (amended): `update_pattern_triggers` returns `False` and leaves the
file byte-for-byte unchanged exactly when its locate regex finds no match,
i.e. when no occurrence of the literal `### category: title` is followed
later in the file by `Triggers**: ` and a digit; when such an occurrence
exists, the function returns `True` and replaces the first maximal digit
run after the first such occurrence by the decimal successor of its value.
(The claim's premise "no entry with the given (category, title) exists" is
not the regex's condition: see the counterexample.) -/
theorem C3_update_locate_behaviour (category title content : List Char) :
    (¬ updateFound category title content →
      update_pattern_triggers_run category title content = (false, content)) ∧
    (updateFound category title content →
      (update_pattern_triggers_run category title content).1 = true ∧
      ∃ a m d b, content = a ++ headingLit category title ++ m ++ trigMarker ++ d ++ b
        ∧ d ≠ [] ∧ (∀ c ∈ d, c.isDigit = true)
        ∧ (update_pattern_triggers_run category title content).2
            = a ++ headingLit category title ++ m ++ trigMarker
              ++ natDigits (digitsToNat d + 1) ++ b) := by
  constructor
  · intro hnf
    rw [update_pattern_triggers_run, update_none_of_not_found _ _ _ hnf]
  · intro hf
    obtain ⟨pre, mid, ds, post, -, -, hcont, hne, hdigs, -, hupd⟩ :=
      update_some_of_found _ _ _ hf
    refine ⟨by simp [update_pattern_triggers_run, hupd], pre, mid, ds, post, hcont, hne, hdigs, ?_⟩
    simp [update_pattern_triggers_run, hupd]

/-- C3 witness: a concrete match — the update reports success on a file
consisting of a heading followed by a counter field. -/
theorem C3_update_locate_behaviour_witness :
    (update_pattern_triggers_run (("Git").toList) (("A").toList)
      (headingLit (("Git").toList) (("A").toList) ++ trigMarker ++ ['3'])).1 = true :=
  ((C3_update_locate_behaviour (("Git").toList) (("A").toList)
      (headingLit (("Git").toList) (("A").toList) ++ trigMarker ++ ['3'])).2
    ⟨[], [], '3', [], by decide, by decide⟩).1

/-- C3 counterexample: the file holds a single entry `Git: AB` (so no entry
`(Git, A)` exists — `is_duplicate` is false), yet `update_pattern_triggers`
for `(Git, A)` returns `True` and rewrites the file, because the locate
regex matches `### Git: A` as a prefix of the `### Git: AB` heading. -/
theorem C3_counterexample :
    is_duplicate (("Git").toList) (("A").toList)
      (("### Git: AB\n\n**Confidence**: 80% | **Triggers**: 3\n").toList) = false
    ∧ update_pattern_triggers_run (("Git").toList) (("A").toList)
        (("### Git: AB\n\n**Confidence**: 80% | **Triggers**: 3\n").toList)
      = (true, ("### Git: AB\n\n**Confidence**: 80% | **Triggers**: 4\n").toList) := by
  constructor
  · decide
  · decide

/-- C4 (amended): a successful `update_pattern_triggers` call rewrites
exactly one maximal digit run, located immediately after a `Triggers**: `
marker, replacing it by its decimal successor; every byte of the file
outside that run is unchanged.  (The rewritten run is the first counter
field after the first occurrence of the heading literal, which need not be
the counter of the named entry: see the counterexample.) -/
theorem C4_update_frame (category title content out : List Char)
    (h : update_pattern_triggers category title content = some out) :
    ∃ pre d post, content = pre ++ d ++ post
      ∧ out = pre ++ natDigits (digitsToNat d + 1) ++ post
      ∧ d ≠ [] ∧ (∀ c ∈ d, c.isDigit = true)
      ∧ trigMarker <:+ pre
      ∧ (∀ c, post.head? = some c → c.isDigit = false) := by
  have hf := update_some_found _ _ _ _ h
  obtain ⟨pre, mid, ds, post, -, -, hcont, hne, hdigs, hhead, hupd⟩ :=
    update_some_of_found _ _ _ hf
  rw [h] at hupd
  have hout : out = pre ++ headingLit category title ++ mid ++ trigMarker
      ++ natDigits (digitsToNat ds + 1) ++ post := by
    injection hupd.symm with hv
    exact hv.symm
  refine ⟨pre ++ headingLit category title ++ mid ++ trigMarker, ds, post, ?_, ?_, hne, hdigs, ?_, hhead⟩
  · rw [hcont]
  · rw [hout]
  · exact List.suffix_append (pre ++ headingLit category title ++ mid) trigMarker

/-- C4 witness: a concrete successful update on a one-entry file rewrites
the digit run `3` to `4` and nothing else. -/
theorem C4_update_frame_witness :
    ∃ pre d post,
      (headingLit (("Git").toList) (("A").toList) ++ trigMarker ++ '3' :: ['\n'])
        = pre ++ d ++ post
      ∧ (headingLit (("Git").toList) (("A").toList) ++ trigMarker ++ '4' :: ['\n'])
        = pre ++ natDigits (digitsToNat d + 1) ++ post
      ∧ d ≠ [] ∧ (∀ c ∈ d, c.isDigit = true)
      ∧ trigMarker <:+ pre
      ∧ (∀ c, post.head? = some c → c.isDigit = false) :=
  C4_update_frame (("Git").toList) (("A").toList)
    (headingLit (("Git").toList) (("A").toList) ++ trigMarker ++ '3' :: ['\n'])
    (headingLit (("Git").toList) (("A").toList) ++ trigMarker ++ '4' :: ['\n'])
    (by decide)

/-- C4 counterexample: the file holds two entries, `Git: AB` and `Git: A`.
Updating `(Git, A)` — whose entry exists, with counter `7` — succeeds but
increments the counter of the other entry `Git: AB` (3 becomes 4) and
leaves the counter of `Git: A` at 7, because the locate regex matches
`### Git: A` as a prefix of the earlier `### Git: AB` heading.  The claim
would require the result in which only the `Git: A` counter changed. -/
theorem C4_counterexample :
    is_duplicate (("Git").toList) (("A").toList)
      (("### Git: AB\n**Triggers**: 3\n### Git: A\n**Triggers**: 7\n").toList) = true
    ∧ update_pattern_triggers_run (("Git").toList) (("A").toList)
        (("### Git: AB\n**Triggers**: 3\n### Git: A\n**Triggers**: 7\n").toList)
      = (true, ("### Git: AB\n**Triggers**: 4\n### Git: A\n**Triggers**: 7\n").toList)
    ∧ ("### Git: AB\n**Triggers**: 4\n### Git: A\n**Triggers**: 7\n").toList
      ≠ ("### Git: AB\n**Triggers**: 3\n### Git: A\n**Triggers**: 8\n").toList := by
  refine ⟨by decide, by decide, by decide⟩

/-! ## Gluing lemmas for `splitLines` and `scanLines` -/

theorem splitLines_ne_nil (s : List Char) : splitLines s ≠ [] := by
  cases s with
  | nil => simp [splitLines]
  | cons c rest =>
    rw [splitLines]
    by_cases hc : c = '\n'
    · simp [hc]
    · rw [if_neg hc]
      cases splitLines rest <;> simp

theorem splitLines_newline (s : List Char) : splitLines ('\n' :: s) = [] :: splitLines s := by
  rw [splitLines]
  simp

theorem splitLines_other (c : Char) (s : List Char) (hc : c ≠ '\n') :
    splitLines (c :: s) = (c :: (splitLines s).headD []) :: (splitLines s).tail := by
  rw [splitLines, if_neg hc]
  cases h : splitLines s with
  | nil => exact absurd h (splitLines_ne_nil s)
  | cons l ls => simp

/-- A newline-free line followed by a newline splits off cleanly. -/
theorem splitLines_line (l : List Char) (s : List Char) (hl : ('\n') ∉ l) :
    splitLines (l ++ '\n' :: s) = l :: splitLines s := by
  induction l with
  | nil => simp [splitLines_newline]
  | cons c l ih =>
    have hc : c ≠ '\n' := by intro hc; exact hl (by simp [hc])
    have hl' : ('\n') ∉ l := fun hm => hl (by simp [hm])
    rw [List.cons_append, splitLines_other c _ hc, ih hl']
    simp

/-- Lines of a newline-free tail. -/
theorem splitLines_no_newline (l : List Char) (hl : ('\n') ∉ l) : splitLines l = [l] := by
  induction l with
  | nil => rfl
  | cons c l ih =>
    have hc : c ≠ '\n' := by intro hc; exact hl (by simp [hc])
    have hl' : ('\n') ∉ l := fun hm => hl (by simp [hm])
    rw [splitLines_other c _ hc, ih hl']
    simp

theorem mem_newline_splitLines_len (a : List Char) (h : ('\n') ∈ a) :
    2 ≤ (splitLines a).length := by
  induction a with
  | nil => simp at h
  | cons c rest ih =>
    by_cases hc : c = '\n'
    · subst hc
      rw [splitLines_newline]
      have := splitLines_ne_nil rest
      cases hr : splitLines rest with
      | nil => exact absurd hr this
      | cons x xs => simp
    · have hrest : ('\n') ∈ rest := by
        rcases List.mem_cons.mp h with h1 | h1
        · exact absurd h1.symm hc
        · exact h1
      rw [splitLines_other c _ hc]
      have := ih hrest
      cases hr : splitLines rest with
      | nil => exact absurd hr (splitLines_ne_nil rest)
      | cons x xs =>
        rw [hr] at this
        simp at this ⊢
        omega

/-- Splitting an appended text whose first part ends with a newline. -/
theorem splitLines_append_newline (a : List Char) : ∀ b, a.getLast? = some '\n' →
    splitLines (a ++ b) = (splitLines a).dropLast ++ splitLines b := by
  induction a with
  | nil => intro b h; simp at h
  | cons c a ih =>
    intro b h
    cases a with
    | nil =>
      have hc : c = '\n' := by simpa using h
      subst hc
      rw [List.cons_append, splitLines_newline, List.nil_append, splitLines_newline]
      simp [splitLines]
    | cons c2 a2 =>
      have hlast : (c2 :: a2).getLast? = some '\n' := by
        rw [List.getLast?_cons_cons] at h
        exact h
      have recur := ih b hlast
      have hmem : ('\n') ∈ c2 :: a2 := by
        obtain ⟨hne, heq⟩ :=
          List.mem_getLast?_eq_getLast (show ('\n') ∈ (c2 :: a2).getLast? from hlast)
        rw [heq]
        exact List.getLast_mem hne
      by_cases hc : c = '\n'
      · subst hc
        rw [List.cons_append, splitLines_newline, splitLines_newline, recur]
        have h2 := mem_newline_splitLines_len (c2 :: a2) hmem
        cases hr : splitLines (c2 :: a2) with
        | nil => exact absurd hr (splitLines_ne_nil _)
        | cons x xs =>
          rw [hr] at h2
          simp at h2
          cases xs with
          | nil => simp at h2
          | cons y ys => simp
      · rw [List.cons_append, splitLines_other c _ hc, recur,
          splitLines_other c _ hc]
        have h2 := mem_newline_splitLines_len (c2 :: a2) hmem
        cases hr : splitLines (c2 :: a2) with
        | nil => exact absurd hr (splitLines_ne_nil _)
        | cons x xs =>
          rw [hr] at h2
          simp at h2
          cases xs with
          | nil => simp at h2
          | cons y ys =>
            have hb := splitLines_ne_nil b
            cases hsb : splitLines b with
            | nil => exact absurd hsb hb
            | cons z zs => simp

theorem isPrefixOf_false_head (c1 c2 : Char) (t u : List Char) (hne : c1 ≠ c2) :
    List.isPrefixOf (c1 :: t) (c2 :: u) = false := by
  rw [Bool.eq_false_iff]
  intro h
  rw [List.isPrefixOf_iff_prefix, List.cons_prefix_cons] at h
  exact hne h.1

theorem occurs_mono (p q s : List Char) (h : occursIn (p ++ q) s) : occursIn p s := by
  obtain ⟨x, y, hxy⟩ := h
  exact ⟨x, q ++ y, by rw [hxy]; simp⟩

theorem occurs_cons_elim (pat s : List Char) (c : Char) (h : occursIn pat (c :: s)) :
    (∃ y, c :: s = pat ++ y) ∨ occursIn pat s := by
  obtain ⟨x, y, hxy⟩ := h
  cases x with
  | nil => exact Or.inl ⟨y, by simpa using hxy⟩
  | cons x0 x' =>
    right
    refine ⟨x', y, ?_⟩
    have : c :: s = x0 :: (x' ++ pat ++ y) := by simpa using hxy
    injection this with _ h2

theorem splitFirst_self (pat t : List Char) (hne : pat ≠ []) :
    splitFirst pat (pat ++ t) = some ([], t) := by
  cases pat with
  | nil => exact absurd rfl hne
  | cons pc pr =>
    rw [show (pc :: pr) ++ t = pc :: (pr ++ t) from rfl, splitFirst]
    have hp : List.isPrefixOf (pc :: pr) (pc :: (pr ++ t)) = true := by
      rw [List.isPrefixOf_iff_prefix]
      exact ⟨t, by simp⟩
    rw [if_pos hp]
    have : (pc :: (pr ++ t)).drop (pc :: pr).length = t := by
      rw [show pc :: (pr ++ t) = (pc :: pr) ++ t from rfl]
      exact List.drop_left (pc :: pr) t
    rw [this]

/-- A line is harmless for the scanner: it does not start with `### `, or
parses as a complete heading within the line.  (All lines written by the
system are of this form.) -/
def lineOk (l : List Char) : Bool :=
  !(List.isPrefixOf ("### ").toList l) ||
    ((l.drop 4).contains ':' &&
      !((l.drop 4).takeWhile (fun c => c ≠ ':')).isEmpty &&
      (((l.drop 4).dropWhile (fun c => c ≠ ':')).drop 1).head? == some ' ' &&
      !((((l.drop 4).dropWhile (fun c => c ≠ ':')).drop 1).tail).isEmpty)

theorem scanLines_skip (l : List Char) (ls : List (List Char))
    (h : List.isPrefixOf ("### ").toList l = false) :
    scanLines (l :: ls) = scanLines ls := by
  rw [scanLines_cons, if_neg (by rw [h]; simp)]

theorem scanLines_append_ok (P : List (List Char)) (L : List (List Char))
    (h : ∀ l ∈ P, lineOk l = true) :
    scanLines (P ++ L) = scanLines P ++ scanLines L := by
  induction P with
  | nil => simp [scanLines_nil]
  | cons l P ih =>
    have hl : lineOk l = true := h l (by simp)
    have hP : ∀ x ∈ P, lineOk x = true := fun x hx => h x (by simp [hx])
    rw [List.cons_append, scanLines_cons, scanLines_cons]
    by_cases hp : List.isPrefixOf ("### ").toList l = true
    · rw [if_pos hp, if_pos hp]
      rw [lineOk, hp] at hl
      simp only [Bool.not_true, Bool.false_or, Bool.and_eq_true] at hl
      obtain ⟨⟨⟨hcol, hcatne⟩, hsp⟩, httl⟩ := hl
      have hscL := splitAtColon_pos (l.drop 4) (P ++ L) hcol
      have hscR := splitAtColon_pos (l.drop 4) P hcol
      rw [hscL, hscR]
      have hcond : (l.drop 4).takeWhile (fun c => c ≠ ':') ≠ []
          ∧ (((l.drop 4).dropWhile (fun c => c ≠ ':')).drop 1).head? = some ' '
          ∧ (((l.drop 4).dropWhile (fun c => c ≠ ':')).drop 1).tail ≠ [] := by
        refine ⟨?_, ?_, ?_⟩
        · simpa using hcatne
        · simpa using hsp
        · simpa using httl
      show (if _ ∧ _ ∧ _ then _ :: scanLines (P ++ L) else scanLines (P ++ L))
        = (if _ ∧ _ ∧ _ then _ :: scanLines P else scanLines P) ++ scanLines L
      rw [if_pos hcond, if_pos hcond, ih hP]
      simp
    · rw [if_neg hp, if_neg hp]
      exact ih hP

theorem scanLines_heading (category title : List Char) (ls : List (List Char))
    (hcat : category ≠ []) (hcatc : (':') ∉ category) (httl : title ≠ []) :
    scanLines (headingLit category title :: ls) = (category, title) :: scanLines ls := by
  have hform : headingLit category title
      = ("### ").toList ++ (category ++ ':' :: ' ' :: title) := by
    simp [headingLit]
  have hp : List.isPrefixOf ("### ").toList (headingLit category title) = true := by
    rw [List.isPrefixOf_iff_prefix, hform]
    exact ⟨_, rfl⟩
  have hdrop : (headingLit category title).drop 4 = category ++ ':' :: ' ' :: title := by
    rw [hform]
    exact List.drop_left ("### ").toList (category ++ ':' :: ' ' :: title)
  have hcol : (category ++ ':' :: ' ' :: title).contains ':' = true := by
    simp
  have htw := takeWhile_append_all (fun c => decide (c ≠ ':')) category ':' (' ' :: title)
    (fun c hc => by
      simp only [decide_eq_true_eq]
      intro heq
      exact hcatc (heq ▸ hc))
    (by simp)
  rw [scanLines_cons, if_pos hp, hdrop, splitAtColon_pos _ _ hcol]
  show (if (category ++ ':' :: ' ' :: title).takeWhile (fun c => c ≠ ':') ≠ []
      ∧ (((category ++ ':' :: ' ' :: title).dropWhile (fun c => c ≠ ':')).drop 1).head? = some ' '
      ∧ (((category ++ ':' :: ' ' :: title).dropWhile (fun c => c ≠ ':')).drop 1).tail ≠ [] then
      ((category ++ ':' :: ' ' :: title).takeWhile (fun c => c ≠ ':'),
        (((category ++ ':' :: ' ' :: title).dropWhile (fun c => c ≠ ':')).drop 1).tail)
        :: scanLines ls
    else scanLines ls) = (category, title) :: scanLines ls
  rw [htw.1, htw.2]
  rw [if_pos ⟨hcat, by simp, by simpa using httl⟩]
  simp

theorem newline_not_mem_headingLit (category title : List Char)
    (hcatn : ('\n') ∉ category) (httln : ('\n') ∉ title) :
    ('\n') ∉ headingLit category title := by
  intro hmem
  rw [headingLit] at hmem
  rcases List.mem_append.mp hmem with h1 | h1
  · rcases List.mem_append.mp h1 with h2 | h2
    · rcases List.mem_append.mp h2 with h3 | h3
      · simp at h3
      · exact hcatn h3
    · simp at h2
  · exact httln h1

/-- C10: after `write_pattern` appends an entry whose heading line is
`### {category}: {title}` at the start of a line, `is_duplicate` of that
(category, title) returns true on the resulting file.  Requires the
category to contain no colon (title extraction splits the heading at its
first colon) and no newline, a nonempty title without newline, and a prior
file whose lines are well formed for the scanner (every `### ` line parses
as a complete heading within its own line, as all system-written lines do)
and which ends with a newline. -/
theorem C10_write_then_detect (category title prior body : List Char)
    (hcat : category ≠ []) (hcatc : (':') ∉ category) (hcatn : ('\n') ∉ category)
    (httl : title ≠ []) (httln : ('\n') ∉ title)
    (hprior : prior.getLast? = some '\n')
    (hok : ∀ l ∈ splitLines prior, lineOk l = true) :
    is_duplicate category title
      (write_pattern (headingLit category title ++ '\n' :: body) prior) = true := by
  rw [write_pattern, is_duplicate, decide_eq_true_eq]
  rw [extract_pattern_titles,
    splitLines_append_newline prior _ hprior,
    splitLines_line (headingLit category title) body
      (newline_not_mem_headingLit category title hcatn httln),
    scanLines_append_ok _ _
      (fun l hl => hok l (List.dropLast_subset (splitLines prior) hl)),
    scanLines_heading category title (splitLines body) hcat hcatc httl]
  refine List.mem_map.mpr ⟨(category, title), ?_, rfl⟩
  simp

/-- C10 witness: a concrete append to the standard header file is detected. -/
theorem C10_write_then_detect_witness :
    is_duplicate (("Git").toList) (("Verify Remote Before Push").toList)
      (write_pattern (headingLit (("Git").toList) (("Verify Remote Before Push").toList)
          ++ '\n' :: ("lesson text\n").toList) rulesHeader) = true :=
  C10_write_then_detect (("Git").toList) (("Verify Remote Before Push").toList)
    rulesHeader (("lesson text\n").toList)
    (by decide) (by decide) (by decide) (by decide) (by decide) (by decide) (by decide)

/-! ## C1: the dedup invariant of the check-then-write discipline -/

/-- Modelled from the spec: the counter line of a repository entry written
by the Session Analyzer (whose script is not under src/), in the format
documented in rules.py: `**Confidence**: XX% | **Triggers**: N`. -/
def confLine (conf : Nat) (trig : List Char) : List Char :=
  ("**Confidence**: ").toList ++ (natDigits conf ++ (("% | **").toList ++ (trigMarker ++ trig)))

/-- Modelled from the spec: a formatted repository entry as appended by the
Session Analyzer (whose script is not under src/): a blank separator, the
heading line `### category: title`, the lesson body, and the counter line. -/
def mkEntry (category title lesson : List Char) (conf : Nat) (trig : List Char) : List Char :=
  '\n' :: (headingLit category title
    ++ '\n' :: ('\n' :: (lesson ++ '\n' :: ('\n' :: (confLine conf trig ++ ['\n'])))))

/-- Modelled from the spec: the Session Analyzer's check-then-write
discipline for one submission — `is_duplicate`, then `write_pattern` on a
new pair or `update_pattern_triggers` on a duplicate (falling back to no
write if the update reports failure). -/
def processSubmission (category title entry content : List Char) : List Char :=
  if is_duplicate category title content then
    match update_pattern_triggers category title content with
    | some c => c
    | none => content
  else write_pattern entry content

/-- Modelled from the spec: `n` submissions processed in sequence. -/
def processN (category title entry : List Char) : Nat → List Char → List Char
  | 0, content => content
  | n + 1, content => processN category title entry n
      (processSubmission category title entry content)

theorem newline_not_mem_confLine (conf : Nat) (trig : List Char)
    (htrig : ('\n') ∉ trig) : ('\n') ∉ confLine conf trig := by
  intro h
  rw [confLine] at h
  rcases List.mem_append.mp h with h1 | h1
  · exact absurd h1 (by decide)
  · rcases List.mem_append.mp h1 with h2 | h2
    · exact newline_not_mem_digits conf h2
    · rcases List.mem_append.mp h2 with h3 | h3
      · exact absurd h3 (by decide)
      · rcases List.mem_append.mp h3 with h4 | h4
        · exact absurd h4 (by decide)
        · exact htrig h4

theorem confLine_not_heading (conf : Nat) (trig : List Char) :
    List.isPrefixOf ("### ").toList (confLine conf trig) = false := by
  have hcf : confLine conf trig = '*' :: (("*Confidence**: ").toList
      ++ (natDigits conf ++ (("% | **").toList ++ (trigMarker ++ trig)))) := rfl
  rw [hcf, show ("### ").toList = '#' :: ("## ").toList from rfl]
  exact isPrefixOf_false_head '#' '*' _ _ (by decide)

/-- Extraction on a repository holding the header and exactly one entry. -/
theorem extract_entry (category title lesson : List Char) (conf : Nat) (trig : List Char)
    (hcat : category ≠ []) (hcatc : (':') ∉ category) (hcatn : ('\n') ∉ category)
    (httl : title ≠ []) (httln : ('\n') ∉ title)
    (hlesn : ('\n') ∉ lesson)
    (hles1 : List.isPrefixOf ("### ").toList lesson = false)
    (htrign : ('\n') ∉ trig) :
    extract_pattern_titles (rulesHeader ++ mkEntry category title lesson conf trig)
      = [category ++ (": ").toList ++ title] := by
  rw [extract_pattern_titles,
    splitLines_append_newline rulesHeader _ (by decide),
    mkEntry, splitLines_newline,
    splitLines_line (headingLit category title) _
      (newline_not_mem_headingLit category title hcatn httln),
    splitLines_newline,
    splitLines_line lesson _ hlesn,
    splitLines_newline,
    splitLines_line (confLine conf trig) []
      (newline_not_mem_confLine conf trig htrign),
    scanLines_append_ok _ _ (fun l hl => (by decide : ∀ x ∈ (splitLines rulesHeader).dropLast,
      lineOk x = true) l hl),
    show scanLines ((splitLines rulesHeader).dropLast) = [] from (by decide),
    scanLines_skip [] _ (by decide),
    scanLines_heading category title _ hcat hcatc httl,
    scanLines_skip [] _ (by decide),
    scanLines_skip lesson _ hles1,
    scanLines_skip [] _ (by decide),
    scanLines_skip (confLine conf trig) _ (confLine_not_heading conf trig),
    show scanLines (splitLines []) = [] from (by decide)]
  simp

theorem splitFirst_cons_neg (pat : List Char) (c : Char) (rest : List Char)
    (h : List.isPrefixOf pat (c :: rest) = false) :
    splitFirst pat (c :: rest) = (splitFirst pat rest).map (fun p => (c :: p.1, p.2)) := by
  rw [splitFirst, if_neg (by rw [h]; exact Bool.false_ne_true)]

theorem findTrig_here (r : List Char) (h : r.takeWhile Char.isDigit ≠ []) :
    findTrig (trigMarker ++ r) = some ([], r.takeWhile Char.isDigit, r.dropWhile Char.isDigit) := by
  have hm : trigMarker ++ r = 'T' :: (("riggers**: ").toList ++ r) := rfl
  rw [hm, findTrig_cons]
  have hp2 : List.isPrefixOf trigMarker ('T' :: (("riggers**: ").toList ++ r)) = true := by
    rw [← hm, List.isPrefixOf_iff_prefix]
    exact ⟨r, rfl⟩
  have hd2 : ('T' :: (("riggers**: ").toList ++ r)).drop trigMarker.length = r := by
    rw [← hm]
    exact List.drop_left trigMarker r
  rw [hd2, if_pos ⟨hp2, h⟩]

theorem not_occurs_trig_cons_newline (s : List Char) (h : ¬ occursIn trigMarker s) :
    ¬ occursIn trigMarker ('\n' :: s) := by
  intro hx
  rcases occurs_cons_elim _ _ _ hx with ⟨y, hy⟩ | h2
  · rw [show trigMarker = 'T' :: ("riggers**: ").toList from rfl] at hy
    simp only [List.cons_append] at hy
    injection hy with h1 _
    exact absurd h1 (by decide)
  · exact h h2

/-- Locating and updating the single entry of a header-plus-one-entry
repository: `update_pattern_triggers` succeeds, incrementing exactly the
entry's counter, and the counter observer reads the stored value. -/
theorem update_entry (category title lesson : List Char) (conf : Nat) (trig : List Char)
    (hcatn : ('\n') ∉ category) (httln : ('\n') ∉ title)
    (hles2 : splitFirst trigMarker lesson = none)
    (htd : ∀ c ∈ trig, c.isDigit = true) (htdne : trig ≠ []) :
    update_pattern_triggers category title
        (rulesHeader ++ mkEntry category title lesson conf trig)
      = some (rulesHeader ++ mkEntry category title lesson conf
          (natDigits (digitsToNat trig + 1)))
    ∧ read_trigger_count category title
        (rulesHeader ++ mkEntry category title lesson conf trig)
      = some (digitsToNat trig) := by
  have hlit_cons : headingLit category title
      = '#' :: (("## ").toList ++ category ++ (": ").toList ++ title) := rfl
  have hlitnl : ('\n') ∉ headingLit category title :=
    newline_not_mem_headingLit category title hcatn httln
  have hnoH : ¬ occursIn (headingLit category title) rulesHeader := by
    intro hocc
    have hform : headingLit category title
        = ("### ").toList ++ (category ++ ':' :: ' ' :: title) := by simp [headingLit]
    rw [hform] at hocc
    exact splitFirst_none_not_occurs _ _ (by decide) (occurs_mono _ _ _ hocc)
  have hlitne : headingLit category title ≠ [] := by rw [hlit_cons]; simp
  have hsf : splitFirst (headingLit category title)
      (rulesHeader ++ mkEntry category title lesson conf trig)
      = some (rulesHeader ++ ['\n'],
          '\n' :: ('\n' :: (lesson ++ '\n' :: ('\n' :: (confLine conf trig ++ ['\n']))))) := by
    rw [mkEntry,
      splitFirst_append_skip _ _ _ (noStart_of_not_occurs _ _ _ hlitnl hnoH),
      splitFirst_cons_neg _ _ _ (by
        rw [hlit_cons]
        exact isPrefixOf_false_head '#' '\n' _ _ (by decide)),
      splitFirst_self _ _ hlitne]
    simp
  have hA2T : ∀ c ∈ ('\n' :: ('\n' :: (("**Confidence**: ").toList
      ++ (natDigits conf ++ ("% | **").toList)))), c ≠ 'T' := by
    intro c hc
    rcases List.mem_cons.mp hc with h1 | h1
    · rw [h1]; decide
    rcases List.mem_cons.mp h1 with h2 | h2
    · rw [h2]; decide
    rcases List.mem_append.mp h2 with h3 | h3
    · intro heq
      rw [heq] at h3
      exact absurd h3 (by decide)
    rcases List.mem_append.mp h3 with h4 | h4
    · intro heq
      exact bigT_not_mem_digits conf (heq ▸ h4)
    · intro heq
      rw [heq] at h4
      exact absurd h4 (by decide)
  have hnsA : noStart trigMarker
      (('\n' :: ('\n' :: lesson)) ++ ('\n' :: ('\n' :: (("**Confidence**: ").toList
        ++ (natDigits conf ++ ("% | **").toList)))))
      (trigMarker ++ (trig ++ ['\n'])) := by
    apply noStart_append
    · exact noStart_of_not_occurs _ _ _ (by decide)
        (not_occurs_trig_cons_newline _ (not_occurs_trig_cons_newline _
          (splitFirst_none_not_occurs _ _ hles2)))
    · exact noStart_of_head_free _ _ _ 'T' (("riggers**: ").toList) rfl hA2T
  have hrest_eq : '\n' :: ('\n' :: (lesson ++ '\n' :: ('\n' :: (confLine conf trig ++ ['\n']))))
      = (('\n' :: ('\n' :: lesson)) ++ ('\n' :: ('\n' :: (("**Confidence**: ").toList
          ++ (natDigits conf ++ ("% | **").toList)))))
        ++ (trigMarker ++ (trig ++ ['\n'])) := by
    simp [confLine, List.append_assoc]
  have htw := takeWhile_append_all Char.isDigit trig '\n' [] htd (by decide)
  have hft : findTrig ('\n' :: ('\n' :: (lesson ++ '\n' :: ('\n' :: (confLine conf trig ++ ['\n'])))))
      = some ((('\n' :: ('\n' :: lesson)) ++ ('\n' :: ('\n' :: (("**Confidence**: ").toList
          ++ (natDigits conf ++ ("% | **").toList))))), trig, ['\n']) := by
    rw [hrest_eq, findTrig_append_skip _ _ hnsA, findTrig_here (trig ++ ['\n'])
      (by rw [htw.1]; exact htdne)]
    rw [htw.1, htw.2]
    simp
  constructor
  · simp only [update_pattern_triggers, hsf, hft]
    simp only [Option.some.injEq]
    simp [mkEntry, confLine, headingLit, List.append_assoc]
  · simp only [read_trigger_count, hsf, hft]

theorem processSubmission_duplicate (category title lesson entry : List Char)
    (conf : Nat) (trig : List Char)
    (hcat : category ≠ []) (hcatc : (':') ∉ category) (hcatn : ('\n') ∉ category)
    (httl : title ≠ []) (httln : ('\n') ∉ title)
    (hlesn : ('\n') ∉ lesson)
    (hles1 : List.isPrefixOf ("### ").toList lesson = false)
    (hles2 : splitFirst trigMarker lesson = none)
    (htd : ∀ c ∈ trig, c.isDigit = true) (htdne : trig ≠ []) :
    processSubmission category title entry
        (rulesHeader ++ mkEntry category title lesson conf trig)
      = rulesHeader ++ mkEntry category title lesson conf
          (natDigits (digitsToNat trig + 1)) := by
  have htrign : ('\n') ∉ trig := by
    intro hm
    have := htd '\n' hm
    exact absurd this (by decide)
  have hdup : is_duplicate category title
      (rulesHeader ++ mkEntry category title lesson conf trig) = true := by
    rw [is_duplicate, decide_eq_true_eq,
      extract_entry category title lesson conf trig hcat hcatc hcatn httl httln hlesn hles1 htrign]
    simp
  rw [processSubmission, if_pos hdup,
    (update_entry category title lesson conf trig hcatn httln hles2 htd htdne).1]

theorem processN_invariant (category title lesson entry : List Char) (conf : Nat)
    (hcat : category ≠ []) (hcatc : (':') ∉ category) (hcatn : ('\n') ∉ category)
    (httl : title ≠ []) (httln : ('\n') ∉ title)
    (hlesn : ('\n') ∉ lesson)
    (hles1 : List.isPrefixOf ("### ").toList lesson = false)
    (hles2 : splitFirst trigMarker lesson = none) :
    ∀ M k, processN category title entry M
        (rulesHeader ++ mkEntry category title lesson conf (natDigits k))
      = rulesHeader ++ mkEntry category title lesson conf (natDigits (k + M)) := by
  intro M
  induction M with
  | zero => intro k; rfl
  | succ M ih =>
    intro k
    rw [processN,
      processSubmission_duplicate category title lesson entry conf (natDigits k)
        hcat hcatc hcatn httl httln hlesn hles1 hles2
        (natDigits_all_digit k) (natDigits_ne_nil k),
      digitsToNat_natDigits, ih (k + 1)]
    rw [show k + 1 + M = k + (M + 1) by omega]

/-- C1: for every N ≥ 1, processing N submissions of the identical
(category, title) pair through the repository's check-then-write discipline
(`is_duplicate`; on a fresh pair `write_pattern`; on a duplicate
`update_pattern_triggers`) starting from the freshly initialised repository
leaves the file equal to the header plus exactly one entry with that
heading — the extracted title list is the one-element list
`category: title` — and that entry's trigger count equals N. -/
theorem C1_dedup_invariant (category title lesson : List Char) (conf N : Nat)
    (hcat : category ≠ []) (hcatc : (':') ∉ category) (hcatn : ('\n') ∉ category)
    (httl : title ≠ []) (httln : ('\n') ∉ title)
    (hlesn : ('\n') ∉ lesson)
    (hles1 : List.isPrefixOf ("### ").toList lesson = false)
    (hles2 : splitFirst trigMarker lesson = none)
    (hN : 1 ≤ N) :
    processN category title (mkEntry category title lesson conf (natDigits 1)) N rulesHeader
        = rulesHeader ++ mkEntry category title lesson conf (natDigits N)
    ∧ extract_pattern_titles (processN category title
          (mkEntry category title lesson conf (natDigits 1)) N rulesHeader)
        = [category ++ (": ").toList ++ title]
    ∧ read_trigger_count category title (processN category title
          (mkEntry category title lesson conf (natDigits 1)) N rulesHeader)
        = some N := by
  obtain ⟨M, rfl⟩ : ∃ M, N = M + 1 := ⟨N - 1, by omega⟩
  have hfirst : processSubmission category title
      (mkEntry category title lesson conf (natDigits 1)) rulesHeader
      = rulesHeader ++ mkEntry category title lesson conf (natDigits 1) := by
    have hnodup : is_duplicate category title rulesHeader = false := by
      rw [is_duplicate]
      simp [show extract_pattern_titles rulesHeader = [] from (by decide)]
    rw [processSubmission, if_neg (by rw [hnodup]; exact Bool.false_ne_true), write_pattern]
  have hmain : processN category title (mkEntry category title lesson conf (natDigits 1))
      (M + 1) rulesHeader
      = rulesHeader ++ mkEntry category title lesson conf (natDigits (M + 1)) := by
    rw [processN, hfirst,
      processN_invariant category title lesson _ conf
        hcat hcatc hcatn httl httln hlesn hles1 hles2 M 1]
    rw [show 1 + M = M + 1 by omega]
  have htrign : ('\n') ∉ natDigits (M + 1) := newline_not_mem_digits (M + 1)
  refine ⟨hmain, ?_, ?_⟩
  · rw [hmain]
    exact extract_entry category title lesson conf (natDigits (M + 1))
      hcat hcatc hcatn httl httln hlesn hles1 htrign
  · rw [hmain,
      (update_entry category title lesson conf (natDigits (M + 1)) hcatn httln hles2
        (natDigits_all_digit (M + 1)) (natDigits_ne_nil (M + 1))).2,
      digitsToNat_natDigits]

/-- C1 witness: three submissions of the pair (Git, Verify Remote) leave
one entry with trigger count 3. -/
theorem C1_dedup_invariant_witness :
    processN (("Git").toList) (("Verify Remote").toList)
        (mkEntry (("Git").toList) (("Verify Remote").toList)
          (("Check remotes first.").toList) 80 (natDigits 1)) 3 rulesHeader
        = rulesHeader ++ mkEntry (("Git").toList) (("Verify Remote").toList)
            (("Check remotes first.").toList) 80 (natDigits 3)
    ∧ extract_pattern_titles (processN (("Git").toList) (("Verify Remote").toList)
          (mkEntry (("Git").toList) (("Verify Remote").toList)
            (("Check remotes first.").toList) 80 (natDigits 1)) 3 rulesHeader)
        = [("Git").toList ++ (": ").toList ++ ("Verify Remote").toList]
    ∧ read_trigger_count (("Git").toList) (("Verify Remote").toList)
        (processN (("Git").toList) (("Verify Remote").toList)
          (mkEntry (("Git").toList) (("Verify Remote").toList)
            (("Check remotes first.").toList) 80 (natDigits 1)) 3 rulesHeader)
        = some 3 :=
  C1_dedup_invariant (("Git").toList) (("Verify Remote").toList)
    (("Check remotes first.").toList) 80 3
    (by decide) (by decide) (by decide) (by decide) (by decide) (by decide)
    (by decide) (by decide) (by omega)

/-! ## `state.py`: session persistence modelled at the JSON level -/

/-- JSON values as produced by `json.load`. -/
inductive Json where
  | null : Json
  | bool (b : Bool) : Json
  | num (q : ℚ) : Json
  | str (s : String) : Json
  | arr (xs : List Json) : Json
  | obj (kvs : List (String × Json)) : Json

/-- The two Python exception classes relevant to `from_dict`. -/
inductive PyErr where
  | keyError : PyErr
  | typeError : PyErr
deriving DecidableEq

/-- `ToolResult` dataclass; Python dataclasses do not enforce field types,
so each field holds an arbitrary decoded JSON value. -/
structure ToolResult where
  tool : Json
  command : Json
  success : Json
  error : Json
  goal_hash : Json
  timestamp : Json

/-- `LearningOpportunity` dataclass. -/
structure LearningOpportunity where
  goal_hash : Json
  failures : Json
  success_command : Json
  error_messages : Json
  confidence : Json

/-- `SessionState` dataclass. -/
structure SessionState where
  session_id : Json
  started_at : Json
  tool_history : List ToolResult
  learning_opportunities : List LearningOpportunity

def assocGet (k : String) : List (String × Json) → Option Json
  | [] => none
  | (k', v) :: rest => if k = k' then some v else assocGet k rest

/-- `data[k]` on a decoded JSON value: KeyError on a missing dict key,
TypeError when the value is not a dict (string indexing of a list, string,
number, boolean or None raises TypeError). -/
def jGet (j : Json) (k : String) : Except PyErr Json :=
  match j with
  | .obj kvs =>
    match assocGet k kvs with
    | some v => .ok v
    | none => .error .keyError
  | _ => .error .typeError

/-- `data.get(k, d)`; in `from_dict` only reached when `data` is a dict. -/
def jGetD (j : Json) (k : String) (d : Json) : Json :=
  match j with
  | .obj kvs => (assocGet k kvs).getD d
  | _ => d

/-- Iterating a JSON value as Python `for t in v`: lists yield elements,
strings yield one-character strings, dicts yield their keys, anything else
raises TypeError. -/
def pyIterElems : Json → Except PyErr (List Json)
  | .arr xs => .ok xs
  | .str s => .ok (s.data.map (fun c => Json.str (String.mk [c])))
  | .obj kvs => .ok (kvs.map (fun p => Json.str p.1))
  | _ => .error .typeError

def trNames : List String :=
  ["tool", "command", "success", "error", "goal_hash", "timestamp"]

def loNames : List String :=
  ["goal_hash", "failures", "success_command", "error_messages", "confidence"]

/-- `**t` keyword expansion matches a dataclass constructor exactly when
the keys are the field names, each exactly once. -/
def keysMatch (kvs : List (String × Json)) (names : List String) : Bool :=
  names.all (fun n => (kvs.map Prod.fst).count n == 1)
    && (kvs.map Prod.fst).all (fun k => names.contains k)

/-- `ToolResult(**t)`: TypeError unless `t` is a dict with exactly the six
field names (missing or extra keywords raise TypeError, not KeyError). -/
def mkToolResult : Json → Except PyErr ToolResult
  | .obj kvs =>
    if keysMatch kvs trNames then
      .ok ⟨(assocGet ("tool") kvs).getD .null, (assocGet ("command") kvs).getD .null,
        (assocGet ("success") kvs).getD .null, (assocGet ("error") kvs).getD .null,
        (assocGet ("goal_hash") kvs).getD .null, (assocGet ("timestamp") kvs).getD .null⟩
    else .error .typeError
  | _ => .error .typeError

/-- `LearningOpportunity(**l)`. -/
def mkOpportunity : Json → Except PyErr LearningOpportunity
  | .obj kvs =>
    if keysMatch kvs loNames then
      .ok ⟨(assocGet ("goal_hash") kvs).getD .null, (assocGet ("failures") kvs).getD .null,
        (assocGet ("success_command") kvs).getD .null,
        (assocGet ("error_messages") kvs).getD .null,
        (assocGet ("confidence") kvs).getD .null⟩
    else .error .typeError
  | _ => .error .typeError

/-- The list comprehension `[C(**t) for t in v]`: first failure propagates. -/
def mapME {α : Type} (f : Json → Except PyErr α) : List Json → Except PyErr (List α)
  | [] => .ok []
  | x :: xs =>
    match f x with
    | .error e => .error e
    | .ok a =>
      match mapME f xs with
      | .error e => .error e
      | .ok ys => .ok (a :: ys)

/-- `asdict` of a `ToolResult`. -/
def ToolResult.to_json (t : ToolResult) : Json :=
  .obj [(("tool"), t.tool), (("command"), t.command), (("success"), t.success),
    (("error"), t.error), (("goal_hash"), t.goal_hash), (("timestamp"), t.timestamp)]

/-- `asdict` of a `LearningOpportunity`. -/
def LearningOpportunity.to_json (l : LearningOpportunity) : Json :=
  .obj [(("goal_hash"), l.goal_hash), (("failures"), l.failures),
    (("success_command"), l.success_command), (("error_messages"), l.error_messages),
    (("confidence"), l.confidence)]

/-- `SessionState.to_dict` from state.py. -/
def SessionState.to_dict (s : SessionState) : Json :=
  .obj [(("session_id"), s.session_id), (("started_at"), s.started_at),
    (("tool_history"), .arr (s.tool_history.map ToolResult.to_json)),
    (("learning_opportunities"), .arr (s.learning_opportunities.map LearningOpportunity.to_json))]

/-- `SessionState.from_dict` from state.py, with Python's exception
behaviour: KeyError from the two direct subscripts, TypeError from
non-dict data or ill-shaped history entries. -/
def SessionState.from_dict (data : Json) : Except PyErr SessionState :=
  match jGet data ("session_id") with
  | .error e => .error e
  | .ok sid =>
    match jGet data ("started_at") with
    | .error e => .error e
    | .ok sa =>
      match pyIterElems (jGetD data ("tool_history") (.arr [])) with
      | .error e => .error e
      | .ok ts =>
        match mapME mkToolResult ts with
        | .error e => .error e
        | .ok th =>
          match pyIterElems (jGetD data ("learning_opportunities") (.arr [])) with
          | .error e => .error e
          | .ok ls =>
            match mapME mkOpportunity ls with
            | .error e => .error e
            | .ok lo => .ok ⟨sid, sa, th, lo⟩

/-- `load_state` from state.py over the persisted file: `none` models an
absent file, `some none` a file whose text does not decode as JSON
(json.JSONDecodeError), `some (some j)` a file decoding to `j`.  Only
JSONDecodeError and KeyError are caught ("Corrupted file, start fresh");
any TypeError raised inside `from_dict` propagates to the caller. -/
def load_state (sid started : String) (file : Option (Option Json)) :
    Except PyErr SessionState :=
  match file with
  | none => .ok ⟨.str sid, .str started, [], []⟩
  | some none => .ok ⟨.str sid, .str started, [], []⟩
  | some (some j) =>
    match SessionState.from_dict j with
    | .ok s => .ok s
    | .error .keyError => .ok ⟨.str sid, .str started, [], []⟩
    | .error .typeError => .error .typeError

/-- `save_state` from state.py: after the call the session's persisted
file holds the serialized dictionary. -/
def save_state (s : SessionState) : Option (Option Json) := some (some s.to_dict)

theorem mkToolResult_to_json (t : ToolResult) :
    mkToolResult (ToolResult.to_json t) = .ok t := rfl

theorem mkOpportunity_to_json (l : LearningOpportunity) :
    mkOpportunity (LearningOpportunity.to_json l) = .ok l := rfl

theorem mapME_map {α : Type} (f : Json → Except PyErr α) (g : α → Json)
    (h : ∀ x, f (g x) = .ok x) : ∀ l : List α, mapME f (l.map g) = .ok l := by
  intro l
  induction l with
  | nil => rfl
  | cons x xs ih =>
    rw [List.map_cons, mapME, h x, ih]

/-- C9: the persistence round trip is the identity — `from_dict (to_dict s)`
returns `s` with every field equal, and loading the session store right
after `save_state` yields the saved state. -/
theorem C9_save_load_roundtrip (s : SessionState) :
    SessionState.from_dict (SessionState.to_dict s) = Except.ok s
    ∧ ∀ sid started, load_state sid started (save_state s) = Except.ok s := by
  obtain ⟨sid0, sa0, th, lo⟩ := s
  have hfd : SessionState.from_dict
      (SessionState.to_dict ⟨sid0, sa0, th, lo⟩) = Except.ok ⟨sid0, sa0, th, lo⟩ := by
    show (match mapME mkToolResult (th.map ToolResult.to_json) with
      | .error e => .error e
      | .ok th' =>
        match mapME mkOpportunity (lo.map LearningOpportunity.to_json) with
        | .error e => .error e
        | .ok lo' => Except.ok (⟨sid0, sa0, th', lo'⟩ : SessionState)) = Except.ok ⟨sid0, sa0, th, lo⟩
    rw [mapME_map mkToolResult ToolResult.to_json mkToolResult_to_json th,
      mapME_map mkOpportunity LearningOpportunity.to_json mkOpportunity_to_json lo]
  refine ⟨hfd, fun sid started => ?_⟩
  simp [load_state, save_state, hfd]

/-- C2 divergence theorem: a session file containing the JSON text `[]` —
valid JSON, invalid state, hence "corrupt" — makes `load_state` raise
TypeError to its caller instead of returning a fresh empty session: the
`except` clause catches only JSONDecodeError and KeyError although its
comment says "Corrupted file, start fresh". -/
theorem C2_corrupt_load_raises :
    load_state ("s1") ("2026-01-01T00:00:00") (some (some (Json.arr [])))
      = Except.error PyErr.typeError := rfl

/-- `cleanup_old_sessions` from state.py: iterate over the `state_*.json`
files of the state directory (modelled as name–mtime pairs, mtime in
seconds), unlink every file whose age in hours exceeds `max_age_hours`,
and return the number removed together with the surviving files.  `now`
models `datetime.now()`; time arithmetic is modelled in ℚ. -/
def cleanup_old_sessions (max_age_hours now : ℚ) :
    List (String × ℚ) → Nat × List (String × ℚ)
  | [] => (0, [])
  | f :: fs =>
    let r := cleanup_old_sessions max_age_hours now fs
    if (now - f.2) / 3600 > max_age_hours then (r.1 + 1, r.2) else (r.1, f :: r.2)

/-- C8: the cleanup sweep removes exactly the session state files whose
modification-time age in hours strictly exceeds the threshold, retains
exactly those within it, and returns the number removed. -/
theorem C8_cleanup_sweep (max_age_hours now : ℚ) (files : List (String × ℚ)) :
    (cleanup_old_sessions max_age_hours now files).1
        = (files.filter (fun f => decide ((now - f.2) / 3600 > max_age_hours))).length
    ∧ (cleanup_old_sessions max_age_hours now files).2
        = files.filter (fun f => decide (¬ (now - f.2) / 3600 > max_age_hours)) := by
  induction files with
  | nil => exact ⟨rfl, rfl⟩
  | cons f fs ih =>
    rw [cleanup_old_sessions]
    by_cases hf : (now - f.2) / 3600 > max_age_hours
    · constructor
      · simp only [if_pos hf, List.filter_cons, ih.1]
        simp [hf]
      · simp only [if_pos hf, List.filter_cons, ih.2]
        simp [hf]
    · constructor
      · simp only [if_neg hf, List.filter_cons, ih.1]
        simp [hf]
      · simp only [if_neg hf, List.filter_cons, ih.2]
        simp [hf]

/-! ## Template matcher, confidence scorer, event tracking (spec-modelled) -/

/-- Modelled from the spec: one failure template of the fixed table — a
category, title, remediation lesson and indicator keywords (the matcher
script is not under src/; the table is a parameter below). -/
structure Template where
  category : String
  title : String
  lesson : String
  indicators : List String
deriving DecidableEq

/-- Case-insensitive substring containment of `ind` in `text`. -/
def containsCI (text ind : String) : Bool :=
  (splitFirst (ind.toList.map Char.toLower) (text.toList.map Char.toLower)).isSome

/-- Number of the template's indicators appearing in the error text. -/
def indicatorHits (t : Template) (text : String) : Nat :=
  (t.indicators.filter (fun i => containsCI text i)).length

/-- Modelled from the spec: a template matches an error text when at least
two of its indicators appear in it (case-insensitive containment). -/
def template_matches (t : Template) (text : String) : Bool :=
  decide (2 ≤ indicatorHits t text)

/-- Modelled from the spec: `match_template` returns the first template of
the table clearing the two-indicator threshold (first match wins, in table
order). -/
def match_template (table : List Template) (text : String) : Option Template :=
  table.find? (fun t => template_matches t text)

/-- C7: for every template of the table and every error text: with exactly
one indicator present the text never matches that template — in particular
`match_template` never returns it; with two or more indicators present the
template matches, and `match_template` fires, returning the first template
of the table that clears the threshold. -/
theorem C7_template_two_indicator_threshold (table : List Template)
    (t : Template) (text : String) (hmem : t ∈ table) :
    (indicatorHits t text = 1 → match_template table text ≠ some t)
    ∧ (2 ≤ indicatorHits t text →
        template_matches t text = true
        ∧ ∃ t', t' ∈ table ∧ match_template table text = some t'
            ∧ 2 ≤ indicatorHits t' text) := by
  constructor
  · intro h1 hmt
    have hp := List.find?_some hmt
    rw [template_matches, decide_eq_true_eq] at hp
    omega
  · intro h2
    refine ⟨by rw [template_matches, decide_eq_true_eq]; exact h2, ?_⟩
    have hsome : (match_template table text).isSome := by
      rw [match_template, List.find?_isSome]
      exact ⟨t, hmem, by rw [template_matches, decide_eq_true_eq]; exact h2⟩
    obtain ⟨t', ht'⟩ := Option.isSome_iff_exists.mp hsome
    refine ⟨t', List.mem_of_find?_eq_some ht', ht', ?_⟩
    have hp := List.find?_some ht'
    rw [template_matches, decide_eq_true_eq] at hp
    exact hp

/-- C7 witness: one indicator present — no match reported for the
template. -/
theorem C7_template_two_indicator_threshold_witness :
    indicatorHits ⟨("Git"), ("Remote"), ("Add the remote first."),
        [("remote"), ("does not appear")]⟩ ("fatal: remote origin missing") = 1
    ∧ match_template [⟨("Git"), ("Remote"), ("Add the remote first."),
        [("remote"), ("does not appear")]⟩] ("fatal: remote origin missing")
      ≠ some ⟨("Git"), ("Remote"), ("Add the remote first."),
        [("remote"), ("does not appear")]⟩ :=
  ⟨by decide,
    (C7_template_two_indicator_threshold
      [⟨("Git"), ("Remote"), ("Add the remote first."), [("remote"), ("does not appear")]⟩]
      ⟨("Git"), ("Remote"), ("Add the remote first."), [("remote"), ("does not appear")]⟩
      ("fatal: remote origin missing") (by decide)).1 (by decide)⟩

/-- Modelled from the spec §4.3: the confidence scorer (script not under
src/): base = min(0.4 + 0.1·failure_count, 0.8), +0.1 when any error
message matches a known template, +0.05 when there is more than one
message and all are identical, capped at 0.95.  Real arithmetic is
modelled in ℚ. -/
def calculate_confidence (table : List Template) (failure_count : Nat)
    (error_messages : List String) : ℚ :=
  let base : ℚ := min ((2 : ℚ)/5 + (failure_count : ℚ) / 10) (4/5)
  let b1 : ℚ := if error_messages.any (fun m => (match_template table m).isSome)
    then base + 1/10 else base
  let b2 : ℚ := if 1 < error_messages.length
      ∧ error_messages.all (fun m => m == error_messages.headD ("")) then b1 + 1/20 else b1
  min b2 (19/20)

/-- C6: the confidence score always lies in [0, 0.95]. -/
theorem C6_confidence_bounds (table : List Template) (failure_count : Nat)
    (error_messages : List String) :
    0 ≤ calculate_confidence table failure_count error_messages
    ∧ calculate_confidence table failure_count error_messages ≤ 19/20 := by
  have hbase : (0:ℚ) ≤ min ((2 : ℚ)/5 + (failure_count : ℚ) / 10) (4/5) := by
    apply le_min
    · positivity
    · norm_num
  unfold calculate_confidence
  refine ⟨?_, min_le_right _ _⟩
  apply le_min _ (by norm_num)
  split_ifs <;> linarith [hbase]

/-- Modelled from the spec: one observed tool event as handed to the
tracking hook (script not under src/). -/
structure TrackEvent where
  tool : String
  command : String
  success : Bool
  error : Option String
  goal : String

/-- Modelled from the spec: the per-event record kept in the session's
tool history (typed view of ToolResult used by the detection scan). -/
structure TrackResult where
  goal : String
  success : Bool
  error : Option String
  command : String

/-- Modelled from the spec: a tracked retry-pattern opportunity. -/
structure TrackOpp where
  goal : String
  failures : Nat
  success_command : String
  error_messages : List String
  confidence : ℚ

/-- Modelled from the spec: the in-session tracking state. -/
structure TrackState where
  history : List TrackResult
  opportunities : List TrackOpp

/-- The spec's detection window: the most recent 20 results. -/
def trackWindow : Nat := 20

/-- Modelled from the spec: update the existing opportunity for the goal
(accumulate failures, replace the success command, append error messages
keeping at most five, take the max confidence) or create a new one. -/
def updateOpps (goal cmd : String) (count : Nat) (errs : List String) (conf : ℚ) :
    List TrackOpp → List TrackOpp
  | [] => [⟨goal, count, cmd, errs.take 5, conf⟩]
  | o :: os =>
    if o.goal = goal then
      ⟨o.goal, o.failures + count, cmd, (o.error_messages ++ errs).take 5,
        max o.confidence conf⟩ :: os
    else o :: updateOpps goal cmd count errs conf os

/-- Modelled from the spec §4.4: the detection algorithm run on every
event (tracking hook script not under src/): append the result; on a
successful event scan the most recent 20 results for same-goal failures;
if one or more exist, aggregate their error messages, score confidence,
and update or create the goal's LearningOpportunity.  A success with no
preceding same-goal failure creates nothing. -/
def trackEvent (table : List Template) (st : TrackState) (e : TrackEvent) : TrackState :=
  let hist := st.history ++ [⟨e.goal, e.success, e.error, e.command⟩]
  if e.success then
    let window := hist.drop (hist.length - trackWindow)
    let fails := window.filter (fun r => r.goal == e.goal && r.success == false)
    if fails.isEmpty then ⟨hist, st.opportunities⟩
    else
      let errs := fails.filterMap (fun r => r.error)
      ⟨hist, updateOpps e.goal e.command fails.length errs
        (calculate_confidence table fails.length errs) st.opportunities⟩
  else ⟨hist, st.opportunities⟩

/-- A sequence of events processed in order within one session. -/
def trackEvents (table : List Template) (st : TrackState) : List TrackEvent → TrackState
  | [] => st
  | e :: es => trackEvents table (trackEvent table st e) es

/-- C5: within a single session, for every goal hash X the event sequence
fail(X), fail(X), success(X) creates exactly one LearningOpportunity for X
and its failures field equals 2. -/
theorem C5_retry_detection (table : List Template) (X : String)
    (tool1 tool2 tool3 cmd1 cmd2 cmd3 : String) (err1 err2 : Option String) :
    ∃ o : TrackOpp,
      (trackEvents table ⟨[], []⟩
        [⟨tool1, cmd1, false, err1, X⟩, ⟨tool2, cmd2, false, err2, X⟩,
          ⟨tool3, cmd3, true, none, X⟩]).opportunities = [o]
      ∧ o.failures = 2 ∧ o.goal = X := by
  refine ⟨⟨X, 2, cmd3,
    (([⟨X, false, err1, cmd1⟩, ⟨X, false, err2, cmd2⟩] : List TrackResult).filterMap
      (fun r => r.error)).take 5,
    calculate_confidence table 2
      (([⟨X, false, err1, cmd1⟩, ⟨X, false, err2, cmd2⟩] : List TrackResult).filterMap
        (fun r => r.error))⟩, ?_, rfl, rfl⟩
  show (trackEvents table
      (trackEvent table ⟨[], []⟩ ⟨tool1, cmd1, false, err1, X⟩)
      [⟨tool2, cmd2, false, err2, X⟩, ⟨tool3, cmd3, true, none, X⟩]).opportunities = _
  rw [show trackEvent table ⟨[], []⟩ ⟨tool1, cmd1, false, err1, X⟩
      = ⟨[⟨X, false, err1, cmd1⟩], []⟩ from rfl]
  show (trackEvents table
      (trackEvent table ⟨[⟨X, false, err1, cmd1⟩], []⟩ ⟨tool2, cmd2, false, err2, X⟩)
      [⟨tool3, cmd3, true, none, X⟩]).opportunities = _
  rw [show trackEvent table ⟨[⟨X, false, err1, cmd1⟩], []⟩ ⟨tool2, cmd2, false, err2, X⟩
      = ⟨[⟨X, false, err1, cmd1⟩, ⟨X, false, err2, cmd2⟩], []⟩ from rfl]
  show (trackEvent table ⟨[⟨X, false, err1, cmd1⟩, ⟨X, false, err2, cmd2⟩], []⟩
      ⟨tool3, cmd3, true, none, X⟩).opportunities = _
  rw [trackEvent]
  simp [trackWindow, updateOpps, List.filter]
